import Mathlib

/-!
Verification of the SnapLog report pre-processing and report assembly pipeline
(`src/report_preprocess.py`, `src/report.py`).

The Python functions are shallowly embedded as executable Lean definitions.
Strings are modelled by Lean `String` (a wrapper around `List Char`,
i.e. a sequence of Unicode code points, matching Python's `str`); most of
the actual work happens on the underlying `List Char`.
-/

namespace SnapLog

/-! ## Chunker: `split_into_chunks` (report_preprocess.py lines 243-282)

Python: if `len(text) <= max_chars` return `[text]`; otherwise split on
`"\n"`, greedily accumulate lines (`line_length = len(line) + 1`), flushing
the current chunk (joined with `"\n"`) whenever adding the next line would
exceed `max_chars` and the current chunk is non-empty. -/

/-- Model of Python `text.split("\n")` on the underlying character list:
split into the (non-empty) list of newline-free segments. -/
def splitLines : List Char → List (List Char)
  | [] => [[]]
  | c :: rest =>
    let r := splitLines rest
    if c = '\n' then [] :: r
    else (c :: r.headI) :: r.tail

/-- Model of Python `"\n".join(parts)` on character lists. -/
def joinNLc : List (List Char) → List Char
  | [] => []
  | [l] => l
  | l :: ls => l ++ '\n' :: joinNLc ls

/-- The accumulation loop of `split_into_chunks` (lines 265-279): `cur` is
`current_chunk`, `curLen` is `current_length`; at the end the last chunk is
appended when `current_chunk` is non-empty. -/
def chunksGo (maxChars : Nat) (cur : List (List Char)) (curLen : Nat) :
    List (List Char) → List (List Char)
  | [] => if cur.isEmpty then [] else [joinNLc cur]
  | line :: rest =>
    if curLen + (line.length + 1) > maxChars ∧ ¬ cur.isEmpty then
      joinNLc cur :: chunksGo maxChars [line] (line.length + 1) rest
    else
      chunksGo maxChars (cur ++ [line]) (curLen + (line.length + 1)) rest

/-- Embedding of `split_into_chunks(text, max_chars)`. -/
def split_into_chunks (text : String) (maxChars : Nat) : List String :=
  if text.length ≤ maxChars then [text]
  else (chunksGo maxChars [] 0 (splitLines text.data)).map String.mk

/-- Model of Python `"\n".join(chunks)` at the `String` level, used to state
the reassembly property. -/
def joinNL (chunks : List String) : String :=
  String.mk (joinNLc (chunks.map String.data))

/-! ### Chunker lemmas -/

theorem splitLines_ne_nil (cs : List Char) : splitLines cs ≠ [] := by
  cases cs with
  | nil => simp [splitLines]
  | cons c rest => simp only [splitLines]; split <;> simp

theorem joinNLc_cons_cons (a b : List Char) (ls : List (List Char)) :
    joinNLc (a :: b :: ls) = a ++ '\n' :: joinNLc (b :: ls) := rfl

/-- `"\n".join` written as head plus newline-prefixed tail lines. -/
theorem joinNLc_eq_head_flatten (ls : List (List Char)) :
    ∀ a, joinNLc (a :: ls) = a ++ (ls.map ('\n' :: ·)).flatten := by
  induction ls with
  | nil => intro a; simp [joinNLc]
  | cons b bs ih =>
    intro a
    rw [joinNLc_cons_cons, ih b]
    simp

theorem joinNLc_append (l1 l2 : List (List Char)) (h1 : l1 ≠ []) :
    joinNLc (l1 ++ l2) = joinNLc l1 ++ (l2.map ('\n' :: ·)).flatten := by
  cases l1 with
  | nil => exact absurd rfl h1
  | cons a as =>
    rw [List.cons_append, joinNLc_eq_head_flatten, joinNLc_eq_head_flatten]
    simp

theorem joinNLc_splitLines (cs : List Char) : joinNLc (splitLines cs) = cs := by
  induction cs with
  | nil => rfl
  | cons c rest ih =>
    simp only [splitLines]
    by_cases h : c = '\n'
    · subst h
      rw [if_pos rfl]
      rw [joinNLc_eq_head_flatten]
      cases hr : splitLines rest with
      | nil => exact absurd hr (splitLines_ne_nil rest)
      | cons a as =>
        rw [hr] at ih
        rw [joinNLc_eq_head_flatten] at ih
        simp [ih]
    · simp only [if_neg h]
      cases hr : splitLines rest with
      | nil => exact absurd hr (splitLines_ne_nil rest)
      | cons a as =>
        rw [hr] at ih
        rw [joinNLc_eq_head_flatten] at ih
        simp only [List.headI, List.tail_cons]
        rw [joinNLc_eq_head_flatten]
        simpa using congrArg (c :: ·) ih

theorem chunksGo_ne_nil (m : Nat) (lines : List (List Char)) :
    ∀ cur curLen, cur ≠ [] → chunksGo m cur curLen lines ≠ [] := by
  induction lines with
  | nil =>
    intro cur curLen hcur
    simp [chunksGo, List.isEmpty_iff, hcur]
  | cons line rest ih =>
    intro cur curLen hcur
    simp only [chunksGo]
    split
    · simp
    · exact ih (cur ++ [line]) _ (by simp)

/-- Main invariant of the accumulation loop: the newline-join of all
produced chunks reconstitutes the pending chunk followed by the remaining
lines. -/
theorem joinNLc_chunksGo (m : Nat) (lines : List (List Char)) :
    ∀ cur curLen, cur ≠ [] →
      joinNLc (chunksGo m cur curLen lines) =
        joinNLc cur ++ (lines.map ('\n' :: ·)).flatten := by
  induction lines with
  | nil =>
    intro cur curLen hcur
    simp [chunksGo, List.isEmpty_iff, hcur, joinNLc]
  | cons line rest ih =>
    intro cur curLen hcur
    simp only [chunksGo]
    split
    · cases hr : chunksGo m [line] (line.length + 1) rest with
      | nil => exact absurd hr (chunksGo_ne_nil m rest [line] _ (by simp))
      | cons x xs =>
        rw [joinNLc_eq_head_flatten]
        have := ih [line] (line.length + 1) (by simp)
        rw [hr] at this
        rw [joinNLc_eq_head_flatten] at this
        simp only [joinNLc] at this
        simp [this]
    · rw [ih (cur ++ [line]) _ (by simp)]
      rw [joinNLc_append cur [line] hcur]
      simp [joinNLc]

theorem chunksGo_start (m : Nat) (l0 : List Char) (rest : List (List Char)) :
    chunksGo m [] 0 (l0 :: rest) = chunksGo m [l0] (l0.length + 1) rest := by
  simp [chunksGo]

theorem eq_data_of_mk_eq {l : List Char} {s : String} (h : String.mk l = s) :
    l = s.data := by
  subst h; rfl

theorem mk_data_eq (s : String) : String.mk s.data = s := by
  cases s; rfl

/-- C2: for every `text` and `max_chars`, joining the chunks returned by
`split_into_chunks` with a newline reproduces the original text, and
whenever `len(text) <= max_chars` the result is exactly `[text]`. -/
theorem split_into_chunks_reassembly (text : String) (maxChars : Nat) :
    joinNL (split_into_chunks text maxChars) = text ∧
      (text.length ≤ maxChars → split_into_chunks text maxChars = [text]) := by
  constructor
  · by_cases h : text.length ≤ maxChars
    · simp only [split_into_chunks, if_pos h, joinNL, List.map, joinNLc,
        mk_data_eq]
    · simp only [split_into_chunks, if_neg h, joinNL]
      rw [List.map_map]
      have hdata : (String.data ∘ String.mk) = id := by
        funext l; rfl
      rw [hdata, List.map_id]
      cases hs : splitLines text.data with
      | nil => exact absurd hs (splitLines_ne_nil text.data)
      | cons l0 rest =>
        rw [chunksGo_start]
        rw [joinNLc_chunksGo maxChars rest [l0] _ (by simp)]
        have : joinNLc [l0] = l0 := rfl
        rw [this]
        rw [← joinNLc_eq_head_flatten rest l0, ← hs, joinNLc_splitLines]
  · intro h
    simp [split_into_chunks, if_pos h]

/-- Closed evaluation used to apply `split_into_chunks_reassembly`. -/
theorem split_into_chunks_reassembly_witness :
    joinNL (split_into_chunks "ab" 5) = "ab" ∧
      split_into_chunks "ab" 5 = ["ab"] :=
  ⟨(split_into_chunks_reassembly "ab" 5).1,
    (split_into_chunks_reassembly "ab" 5).2 (by decide)⟩

/-- C6 counterexample: the non-empty input `"aa\n"` with `max_chars = 2`
produces the chunk list `["aa", ""]`, whose second chunk is the empty
string, refuting "every chunk is a non-empty string". -/
theorem split_into_chunks_empty_chunk_counterexample :
    split_into_chunks "aa\n" 2 = ["aa", ""] ∧
      "" ∈ split_into_chunks "aa\n" 2 ∧ ("aa\n" : String) ≠ "" := by
  refine ⟨by decide, by decide, by decide⟩

theorem chunksGo_all_ne_nil (m : Nat) (lines : List (List Char)) :
    ∀ cur curLen, cur ≠ [] → (∀ l ∈ cur, l ≠ []) → (∀ l ∈ lines, l ≠ []) →
      ∀ c ∈ chunksGo m cur curLen lines, c ≠ [] := by
  induction lines with
  | nil =>
    intro cur curLen hcur hcne _ c hc
    simp [chunksGo, List.isEmpty_iff, hcur] at hc
    subst hc
    cases cur with
    | nil => exact absurd rfl hcur
    | cons a as =>
      rw [joinNLc_eq_head_flatten]
      have ha : a ≠ [] := hcne a (by simp)
      simp [ha]
  | cons line rest ih =>
    intro cur curLen hcur hcne hlne c hc
    simp only [chunksGo] at hc
    split at hc
    · rcases List.mem_cons.1 hc with h | h
      · subst h
        cases cur with
        | nil => exact absurd rfl hcur
        | cons a as =>
          rw [joinNLc_eq_head_flatten]
          have ha : a ≠ [] := hcne a (by simp)
          simp [ha]
      · exact ih [line] _ (by simp)
          (by intro x hx; simp at hx; subst hx; exact hlne _ (by simp))
          (fun l hl => hlne l (by simp [hl])) c h
    · exact ih (cur ++ [line]) _ (by simp)
        (by
          intro x hx
          rcases List.mem_append.1 hx with h | h
          · exact hcne x h
          · simp at h; subst h; exact hlne _ (by simp))
        (fun l hl => hlne l (by simp [hl])) c hc

/-- C6 amended: for every non-empty text, at least one chunk is returned;
and when no input line is empty (in particular when
`len(text) <= max_chars`), every returned chunk is non-empty. -/
theorem split_into_chunks_nonempty_amended (text : String) (maxChars : Nat)
    (hne : text ≠ "") :
    1 ≤ (split_into_chunks text maxChars).length ∧
      ((∀ l ∈ splitLines text.data, l ≠ []) →
        ∀ c ∈ split_into_chunks text maxChars, c ≠ "") := by
  constructor
  · by_cases h : text.length ≤ maxChars
    · simp [split_into_chunks, if_pos h]
    · simp only [split_into_chunks, if_neg h, List.length_map]
      cases hs : splitLines text.data with
      | nil => exact absurd hs (splitLines_ne_nil text.data)
      | cons l0 rest =>
        rw [chunksGo_start]
        have := chunksGo_ne_nil maxChars rest [l0] (l0.length + 1) (by simp)
        exact Nat.one_le_iff_ne_zero.2 (fun hz => this (List.length_eq_zero.1 hz))
  · intro hlines c hc
    by_cases h : text.length ≤ maxChars
    · simp [split_into_chunks, if_pos h] at hc
      subst hc
      exact hne
    · simp only [split_into_chunks, if_neg h, List.mem_map] at hc
      obtain ⟨l, hl, hml⟩ := hc
      cases hs : splitLines text.data with
      | nil => exact absurd hs (splitLines_ne_nil text.data)
      | cons l0 rest =>
        rw [hs, chunksGo_start] at hl
        have hlne : l ≠ [] := by
          refine chunksGo_all_ne_nil maxChars rest [l0] _ (by simp) ?_ ?_ l hl
          · intro x hx; simp at hx; subst hx
            exact hlines _ (by rw [hs]; simp)
          · intro x hx; exact hlines x (by rw [hs]; simp [hx])
        intro hceq
        apply hlne
        have := eq_data_of_mk_eq hml
        rw [hceq] at this
        simpa using this

/-- Closed evaluation used to apply `split_into_chunks_nonempty_amended`. -/
theorem split_into_chunks_nonempty_amended_witness :
    1 ≤ (split_into_chunks "ab\ncd" 3).length ∧
      ∀ c ∈ split_into_chunks "ab\ncd" 3, c ≠ "" :=
  ⟨(split_into_chunks_nonempty_amended "ab\ncd" 3 (by decide)).1,
    (split_into_chunks_nonempty_amended "ab\ncd" 3 (by decide)).2 (by decide)⟩

/-- Total accumulated length of a pending chunk, as tracked by the Python
`current_length` variable (each line counts `len(line) + 1`). -/
def sumLens (cur : List (List Char)) : Nat := (cur.map (fun l => l.length + 1)).sum

theorem joinNLc_length (cur : List (List Char)) (h : cur ≠ []) :
    (joinNLc cur).length = sumLens cur - 1 := by
  cases cur with
  | nil => exact absurd rfl h
  | cons a as =>
    rw [joinNLc_eq_head_flatten]
    simp only [List.length_append, List.length_flatten, List.map_map, sumLens]
    simp [Function.comp_def, Nat.add_comm]

theorem nl_mem_joinNLc (cur : List (List Char)) (hfree : ∀ l ∈ cur, '\n' ∉ l) :
    '\n' ∈ joinNLc cur → 2 ≤ cur.length := by
  intro hmem
  match cur with
  | [] => simp [joinNLc] at hmem
  | [a] => exact absurd hmem (hfree a (by simp))
  | a :: b :: bs => simp

theorem splitLines_nl_free (cs : List Char) : ∀ l ∈ splitLines cs, '\n' ∉ l := by
  induction cs with
  | nil => intro l hl; simp [splitLines] at hl; simp [hl]
  | cons c rest ih =>
    intro l hl
    simp only [splitLines] at hl
    by_cases h : c = '\n'
    · rw [if_pos h] at hl
      rcases List.mem_cons.1 hl with h' | h'
      · simp [h']
      · exact ih l h'
    · rw [if_neg h] at hl
      cases hr : splitLines rest with
      | nil => exact absurd hr (splitLines_ne_nil rest)
      | cons a as =>
        rw [hr] at hl
        simp only [List.headI, List.tail_cons] at hl
        rcases List.mem_cons.1 hl with h' | h'
        · subst h'
          intro hmem
          rcases List.mem_cons.1 hmem with h'' | h''
          · exact h h''.symm
          · exact ih a (by rw [hr]; simp) h''
        · exact ih l (by rw [hr]; simp [h'])

/-- Invariant of the accumulation loop for the chunk-size bound: every
produced chunk containing a newline (i.e. spanning at least two lines) has
length at most `max_chars`. -/
theorem chunksGo_nl_bound (m : Nat) (lines : List (List Char)) :
    ∀ cur curLen, cur ≠ [] → curLen = sumLens cur →
      (2 ≤ cur.length → curLen ≤ m) →
      (∀ l ∈ cur, '\n' ∉ l) → (∀ l ∈ lines, '\n' ∉ l) →
      ∀ c ∈ chunksGo m cur curLen lines, '\n' ∈ c → c.length ≤ m := by
  induction lines with
  | nil =>
    intro cur curLen hcur hlen hbound hcfree _ c hc hnl
    simp [chunksGo, List.isEmpty_iff, hcur] at hc
    subst hc
    have h2 := nl_mem_joinNLc cur hcfree hnl
    have := hbound h2
    rw [joinNLc_length cur hcur]
    omega
  | cons line rest ih =>
    intro cur curLen hcur hlen hbound hcfree hlfree c hc hnl
    simp only [chunksGo] at hc
    split at hc
    · rcases List.mem_cons.1 hc with h | h
      · subst h
        have h2 := nl_mem_joinNLc cur hcfree hnl
        have := hbound h2
        rw [joinNLc_length cur hcur]
        omega
      · refine ih [line] _ (by simp) (by simp [sumLens]) (by simp) ?_
          (fun l hl => hlfree l (by simp [hl])) c h hnl
        intro x hx; simp at hx; subst hx
        exact hlfree _ (by simp)
    · rename_i hcond
      refine ih (cur ++ [line]) _ (by simp) ?_ ?_ ?_
        (fun l hl => hlfree l (by simp [hl])) c hc hnl
      · simp [sumLens, hlen]
      · intro _
        rcases not_and_or.1 hcond with h | h
        · omega
        · rw [not_not, List.isEmpty_iff] at h
          exact absurd h hcur
      · intro x hx
        rcases List.mem_append.1 hx with h | h
        · exact hcfree x h
        · simp at h; subst h; exact hlfree _ (by simp)

/-- C10: every chunk returned by `split_into_chunks` whose length exceeds
`max_chars` contains no newline (it is a single over-budget line), and
consequently every chunk containing a newline has length at most
`max_chars`. -/
theorem split_into_chunks_oversize_single_line (text : String) (maxChars : Nat) :
    ∀ c ∈ split_into_chunks text maxChars,
      (maxChars < c.length → '\n' ∉ c.data) ∧
        ('\n' ∈ c.data → c.length ≤ maxChars) := by
  intro c hc
  have key : '\n' ∈ c.data → c.length ≤ maxChars := by
    by_cases h : text.length ≤ maxChars
    · simp [split_into_chunks, if_pos h] at hc
      subst hc
      intro _
      exact h
    · simp only [split_into_chunks, if_neg h, List.mem_map] at hc
      obtain ⟨l, hl, hml⟩ := hc
      cases hs : splitLines text.data with
      | nil => exact absurd hs (splitLines_ne_nil text.data)
      | cons l0 rest =>
        rw [hs, chunksGo_start] at hl
        intro hnl
        have hcd : c.data = l := (eq_data_of_mk_eq hml).symm
        have hcl : c.length = l.length := by
          rw [← hml]; rfl
        rw [hcd] at hnl
        rw [hcl]
        refine chunksGo_nl_bound maxChars rest [l0] _ (by simp)
          (by simp [sumLens]) (by simp) ?_ ?_ l hl hnl
        · intro x hx; simp at hx; subst hx
          exact splitLines_nl_free text.data _ (by rw [hs]; simp)
        · intro x hx
          exact splitLines_nl_free text.data x (by rw [hs]; simp [hx])
  exact ⟨fun hlt hnl => absurd (key hnl) (by omega), key⟩

/-- Closed evaluation used to apply `split_into_chunks_oversize_single_line`:
with `max_chars = 3`, the over-budget line `"abcdef"` forms a chunk by
itself, containing no newline. -/
theorem split_into_chunks_oversize_single_line_witness :
    "abcdef" ∈ split_into_chunks "abcdef\ng" 3 ∧
      ¬ '\n' ∈ ("abcdef" : String).data :=
  ⟨by decide,
    (split_into_chunks_oversize_single_line "abcdef\ng" 3 "abcdef"
      (by decide)).1 (by decide)⟩

/-! ## Timestamps: `parse_timestamp` (report_preprocess.py lines 56-72)

Python parses `timestamp_str.replace("Z", "+00:00")` with
`datetime.fromisoformat` and falls back to `datetime.now()` (a *naive*
datetime) on any parse error.  A datetime is modelled by its instant in
microseconds (UTC microseconds for offset-aware values, local-clock
microseconds for naive ones) together with its awareness flag; Python
refuses to compare or subtract naive and aware datetimes (`TypeError`),
which the model captures through `Except`-valued comparison/subtraction. -/

structure PyDatetime where
  micros : Int
  aware : Bool
deriving DecidableEq

/-- One activity-log record (a JSON object of the activity log; per the
data model all four keys are present, so the Python `entry.get(key,
default)` accesses reduce to field reads). -/
structure Rec where
  timestamp : String
  app_name : String
  window_title : String
  ocr_text : String
deriving DecidableEq

instance : Inhabited Rec := ⟨⟨"", "", "", ""⟩⟩

def digitVal (c : Char) : Nat := c.toNat - '0'.toNat

/-- Parse exactly `n` decimal digits into `acc`. -/
def parseFixed : Nat → Nat → List Char → Option (Nat × List Char)
  | 0, acc, cs => some (acc, cs)
  | _ + 1, _, [] => none
  | n + 1, acc, c :: cs =>
    if c.isDigit then parseFixed n (acc * 10 + digitVal c) cs else none

def expectChar (c : Char) : List Char → Option (List Char)
  | [] => none
  | x :: xs => if x = c then some xs else none

def isLeap (y : Nat) : Bool := y % 4 = 0 && (y % 100 ≠ 0 || y % 400 = 0)

def daysInMonth (y m : Nat) : Nat :=
  if m = 2 then (if isLeap y then 29 else 28)
  else if m = 4 ∨ m = 6 ∨ m = 9 ∨ m = 11 then 30
  else 31

/-- Days elapsed since the proleptic-Gregorian era origin (shifted civil
calendar, valid for year ≥ 1); only differences and order matter. -/
def daysFromCivil (y m d : Nat) : Nat :=
  let y' := if m ≤ 2 then y - 1 else y
  let era := y' / 400
  let yoe := y' % 400
  let mp := if m ≤ 2 then m + 9 else m - 3
  let doy := (153 * mp + 2) / 5 + (d - 1)
  let doe := yoe * 365 + yoe / 4 - yoe / 100 + doy
  era * 146097 + doe

/-- Parse 1 to 6 fractional-second digits, scaled to microseconds. -/
def parseFrac (cs : List Char) : Option (Nat × List Char) :=
  let run := cs.takeWhile Char.isDigit
  if run.length = 0 ∨ 6 < run.length then none
  else
    some ((run.foldl (fun a c => a * 10 + digitVal c) 0) * 10 ^ (6 - run.length),
      cs.drop run.length)

/-- Parse the optional `±HH[:MM]` UTC-offset suffix; returns the offset in
microseconds, or `none` for a naive time; fails on a malformed suffix. -/
def parseOffset (cs : List Char) : Option (Option Int) :=
  match cs with
  | [] => some none
  | sign :: rest =>
    if sign = '+' ∨ sign = '-' then
      match parseFixed 2 0 rest with
      | none => none
      | some (oh, rest1) =>
        match rest1 with
        | [] =>
          if oh ≤ 23 then
            some (some ((if sign = '-' then -1 else 1) * (oh : Int) * 3600000000))
          else none
        | c :: rest2 =>
          if c = ':' then
            match parseFixed 2 0 rest2 with
            | none => none
            | some (om, rest3) =>
              if rest3 = [] ∧ oh ≤ 23 ∧ om ≤ 59 then
                some (some ((if sign = '-' then -1 else 1) *
                  ((oh : Int) * 3600000000 + (om : Int) * 60000000)))
              else none
          else none
    else none

/-- Parse `HH[:MM[:SS[.ffffff]]]` followed by an optional offset; returns
(microseconds within the day, offset). -/
def parseTimePart (cs : List Char) : Option (Nat × Option Int) :=
  match parseFixed 2 0 cs with
  | none => none
  | some (h, rest) =>
    if h ≤ 23 then
      match rest with
      | ':' :: rest1 =>
        match parseFixed 2 0 rest1 with
        | none => none
        | some (mi, rest2) =>
          if mi ≤ 59 then
            match rest2 with
            | ':' :: rest3 =>
              match parseFixed 2 0 rest3 with
              | none => none
              | some (s, rest4) =>
                if s ≤ 59 then
                  match rest4 with
                  | '.' :: rest5 =>
                    match parseFrac rest5 with
                    | none => none
                    | some (f, rest6) =>
                      match parseOffset rest6 with
                      | none => none
                      | some off =>
                        some ((h * 3600 + mi * 60 + s) * 1000000 + f, off)
                  | _ =>
                    match parseOffset rest4 with
                    | none => none
                    | some off => some ((h * 3600 + mi * 60 + s) * 1000000, off)
                else none
            | _ =>
              match parseOffset rest2 with
              | none => none
              | some off => some ((h * 3600 + mi * 60) * 1000000, off)
          else none
      | _ =>
        match parseOffset rest with
        | none => none
        | some off => some (h * 3600000000, off)
    else none

/-- Model of Python `datetime.fromisoformat` for the extended ISO-8601
format `YYYY-MM-DD[<sep>HH[:MM[:SS[.f{1,6}]]][±HH[:MM]]]` (any single
separator character, as in CPython).  Returns `none` where Python raises
`ValueError`. -/
def fromisoformat (cs : List Char) : Option PyDatetime :=
  match parseFixed 4 0 cs with
  | none => none
  | some (y, r1) =>
    match expectChar '-' r1 with
    | none => none
    | some r2 =>
      match parseFixed 2 0 r2 with
      | none => none
      | some (mo, r3) =>
        match expectChar '-' r3 with
        | none => none
        | some r4 =>
          match parseFixed 2 0 r4 with
          | none => none
          | some (d, r5) =>
            if 1 ≤ y ∧ 1 ≤ mo ∧ mo ≤ 12 ∧ 1 ≤ d ∧ d ≤ daysInMonth y mo then
              let base : Int := (daysFromCivil y mo d : Int) * 86400000000
              match r5 with
              | [] => some ⟨base, false⟩
              | _ :: r6 =>
                match parseTimePart r6 with
                | none => none
                | some (tm, none) => some ⟨base + (tm : Int), false⟩
                | some (tm, some off) => some ⟨base + (tm : Int) - off, true⟩
            else none

/-- Model of Python `timestamp_str.replace("Z", "+00:00")`. -/
def replaceZ : List Char → List Char
  | [] => []
  | c :: cs =>
    if c = 'Z' then '+' :: '0' :: '0' :: ':' :: '0' :: '0' :: replaceZ cs
    else c :: replaceZ cs

/-- Embedding of `parse_timestamp` (lines 56-72): parse, falling back to
the current wall-clock time `now` — a *naive* datetime — on failure. -/
def parse_timestamp (now : Int) (s : String) : PyDatetime :=
  match fromisoformat (replaceZ s.data) with
  | some dt => dt
  | none => ⟨now, false⟩

/-! ## Session splitter: `split_into_sessions` (lines 75-116) -/

/-- Python datetime subtraction: raises `TypeError` (modelled as
`Except.error`) when one operand is naive and the other aware; otherwise
the difference of the instants (a `timedelta`, in microseconds). -/
def datetimeSub (a b : PyDatetime) : Except Unit Int :=
  if a.aware = b.aware then .ok (a.micros - b.micros) else .error ()

/-- The split test of lines 99-104: `gap >= timedelta(minutes=gap_minutes)`
with `gap = curr_time - prev_time`; `thr` is the threshold in
microseconds. -/
def gapSplitTest (now thr : Int) (prev curr : Rec) : Except Unit Bool :=
  match datetimeSub (parse_timestamp now curr.timestamp)
      (parse_timestamp now prev.timestamp) with
  | .error e => .error e
  | .ok d => .ok (decide (thr ≤ d))

/-- The scan of lines 98-113: `cur` is `current_session` (always
non-empty), `prev` the previous record of the sorted list; a raised
`TypeError` aborts the whole loop. -/
def sessionsLoop (split : Rec → Rec → Except Unit Bool) (prev : Rec)
    (cur : List Rec) : List Rec → Except Unit (List (List Rec))
  | [] => .ok [cur]
  | r :: rest =>
    match split prev r with
    | .error e => .error e
    | .ok true =>
      match sessionsLoop split r [r] rest with
      | .error e => .error e
      | .ok ss => .ok (cur :: ss)
    | .ok false => sessionsLoop split r (cur ++ [r]) rest

/-- Stable insertion: `x` is placed after every earlier element that is
not strictly greater, reproducing the order Python's stable sort gives. -/
def insertSorted (lt : α → α → Bool) (x : α) : List α → List α
  | [] => [x]
  | y :: ys => if lt x y then x :: y :: ys else y :: insertSorted lt x ys

def insertionSort (lt : α → α → Bool) (l : List α) : List α :=
  l.foldl (fun acc x => insertSorted lt x acc) []

/-- Model of `sorted(logs, key=lambda x: parse_timestamp(x.get("timestamp",
"")))` (line 93).  Python's sort is stable and raises `TypeError` exactly
when both naive and aware keys are present (any comparison sort must
compare one naive key with one aware key to order them); with keys of
uniform awareness it returns the stable ascending sort by instant. -/
def pySortedByTime (now : Int) : List Rec → Except Unit (List Rec)
  | [] => .ok []
  | x :: xs =>
    if xs.all (fun y => (parse_timestamp now y.timestamp).aware ==
        (parse_timestamp now x.timestamp).aware) then
      .ok (insertionSort (fun a b =>
        (parse_timestamp now a.timestamp).micros <
          (parse_timestamp now b.timestamp).micros) (x :: xs))
    else .error ()

/-- Embedding of `split_into_sessions(logs, gap_minutes)` (lines 75-116).
`timedelta(minutes=g)` is `g * 60_000_000` microseconds. -/
def split_into_sessions (now : Int) (logs : List Rec) (gap_minutes : Int) :
    Except Unit (List (List Rec)) :=
  if logs.isEmpty then .ok []
  else
    match pySortedByTime now logs with
    | .error e => .error e
    | .ok [] => .ok []
    | .ok (x :: xs) =>
      sessionsLoop (gapSplitTest now (gap_minutes * 60000000)) x [x] xs

/-! ### Session-splitter lemmas -/

theorem sessionsLoop_flatten (split : Rec → Rec → Except Unit Bool)
    (l : List Rec) :
    ∀ prev cur ss, sessionsLoop split prev cur l = .ok ss →
      ss.flatten = cur ++ l := by
  induction l with
  | nil =>
    intro prev cur ss h
    simp [sessionsLoop] at h
    subst h
    simp
  | cons r rest ih =>
    intro prev cur ss h
    simp only [sessionsLoop] at h
    cases hsp : split prev r with
    | error e => rw [hsp] at h; exact absurd h (by simp)
    | ok b =>
      rw [hsp] at h
      cases b with
      | true =>
        cases hrec : sessionsLoop split r [r] rest with
        | error e => rw [hrec] at h; exact absurd h (by simp)
        | ok ss' =>
          rw [hrec] at h
          simp at h
          subst h
          have := ih r [r] ss' hrec
          simp [this]
      | false =>
        have := ih r (cur ++ [r]) ss h
        simpa using this

theorem sessionsLoop_ne_nil (split : Rec → Rec → Except Unit Bool)
    (l : List Rec) :
    ∀ prev cur ss, sessionsLoop split prev cur l = .ok ss → cur ≠ [] →
      ∀ s ∈ ss, s ≠ [] := by
  induction l with
  | nil =>
    intro prev cur ss h hcur s hs
    simp [sessionsLoop] at h
    subst h
    simp at hs
    subst hs
    exact hcur
  | cons r rest ih =>
    intro prev cur ss h hcur s hs
    simp only [sessionsLoop] at h
    cases hsp : split prev r with
    | error e => rw [hsp] at h; exact absurd h (by simp)
    | ok b =>
      rw [hsp] at h
      cases b with
      | true =>
        cases hrec : sessionsLoop split r [r] rest with
        | error e => rw [hrec] at h; exact absurd h (by simp)
        | ok ss' =>
          rw [hrec] at h
          simp at h
          subst h
          rcases List.mem_cons.1 hs with h' | h'
          · subst h'; exact hcur
          · exact ih r [r] ss' hrec (by simp) s h'
      | false =>
        exact ih r (cur ++ [r]) ss h (by simp) s hs

theorem sessionsLoop_head (split : Rec → Rec → Except Unit Bool)
    (l : List Rec) :
    ∀ prev cur ss, sessionsLoop split prev cur l = .ok ss →
      ∃ t, ss.head? = some (cur ++ t) := by
  induction l with
  | nil =>
    intro prev cur ss h
    simp [sessionsLoop] at h
    subst h
    exact ⟨[], by simp⟩
  | cons r rest ih =>
    intro prev cur ss h
    simp only [sessionsLoop] at h
    cases hsp : split prev r with
    | error e => rw [hsp] at h; exact absurd h (by simp)
    | ok b =>
      rw [hsp] at h
      cases b with
      | true =>
        cases hrec : sessionsLoop split r [r] rest with
        | error e => rw [hrec] at h; exact absurd h (by simp)
        | ok ss' =>
          rw [hrec] at h
          simp at h
          subst h
          exact ⟨[], by simp⟩
      | false =>
        obtain ⟨t, ht⟩ := ih r (cur ++ [r]) ss h
        exact ⟨[r] ++ t, by simpa using ht⟩

/-- The pure content of the split test: the gap from `a` to `b` meets the
threshold `thr` (microseconds). -/
def GapP (now thr : Int) (a b : Rec) : Prop :=
  thr ≤ (parse_timestamp now b.timestamp).micros -
    (parse_timestamp now a.timestamp).micros

instance (now thr : Int) (a b : Rec) : Decidable (GapP now thr a b) := by
  unfold GapP; infer_instance

theorem gapSplitTest_ok (now thr : Int) (a b : Rec) (t : Bool)
    (h : gapSplitTest now thr a b = .ok t) : t = true ↔ GapP now thr a b := by
  unfold gapSplitTest at h
  cases hd : datetimeSub (parse_timestamp now b.timestamp)
      (parse_timestamp now a.timestamp) with
  | error e => rw [hd] at h; exact absurd h (by simp)
  | ok d =>
    rw [hd] at h
    simp at h
    subst h
    unfold datetimeSub at hd
    split at hd
    · simp at hd
      subst hd
      simp [GapP]
    · exact absurd hd (by simp)

/-- Chain characterisation of the session boundaries: inside every produced
session adjacent records are below the gap threshold, and between adjacent
sessions the gap meets it. -/
theorem sessionsLoop_chain (now thr : Int) (l : List Rec) :
    ∀ prev cur ss,
      sessionsLoop (gapSplitTest now thr) prev cur l = .ok ss →
      List.Chain' (fun a b => ¬ GapP now thr a b) cur →
      cur.getLast? = some prev →
      (∀ s ∈ ss, List.Chain' (fun a b => ¬ GapP now thr a b) s) ∧
        List.Chain' (fun s t =>
          GapP now thr (s.getLastD default) (t.headD default)) ss := by
  induction l with
  | nil =>
    intro prev cur ss h hchain _
    simp [sessionsLoop] at h
    subst h
    exact ⟨by simpa using hchain, by simp⟩
  | cons r rest ih =>
    intro prev cur ss h hchain hlast
    simp only [sessionsLoop] at h
    cases hsp : gapSplitTest now thr prev r with
    | error e => rw [hsp] at h; exact absurd h (by simp)
    | ok b =>
      rw [hsp] at h
      cases b with
      | true =>
        cases hrec : sessionsLoop (gapSplitTest now thr) r [r] rest with
        | error e => rw [hrec] at h; exact absurd h (by simp)
        | ok ss' =>
          rw [hrec] at h
          simp at h
          subst h
          have hP : GapP now thr prev r := (gapSplitTest_ok now thr prev r true hsp).1 rfl
          obtain ⟨hin, hbound⟩ := ih r [r] ss' hrec (by simp) (by simp)
          refine ⟨?_, ?_⟩
          · intro s hs
            rcases List.mem_cons.1 hs with h' | h'
            · subst h'; exact hchain
            · exact hin s h'
          · rw [List.chain'_cons']
            refine ⟨?_, hbound⟩
            intro y hy
            obtain ⟨t, ht⟩ := sessionsLoop_head (gapSplitTest now thr) rest r [r] ss' hrec
            rw [ht] at hy
            simp at hy
            subst hy
            simpa [List.getLastD_eq_getLast?, hlast] using hP
      | false =>
        have hnP : ¬ GapP now thr prev r := by
          intro hP
          have := (gapSplitTest_ok now thr prev r false hsp).2 hP
          simp at this
        refine ih r (cur ++ [r]) ss h ?_ (by simp)
        rw [List.chain'_append]
        refine ⟨hchain, by simp, ?_⟩
        intro x hx y hy
        rw [hlast] at hx
        simp at hx hy
        subst hx; subst hy
        exact hnP

theorem insertSorted_length (lt : α → α → Bool) (x : α) (l : List α) :
    (insertSorted lt x l).length = l.length + 1 := by
  induction l with
  | nil => rfl
  | cons y ys ih =>
    simp only [insertSorted]
    split <;> simp [ih]

theorem insertSorted_mem (lt : α → α → Bool) (x a : α) (l : List α) :
    a ∈ insertSorted lt x l ↔ a = x ∨ a ∈ l := by
  induction l with
  | nil => simp [insertSorted]
  | cons y ys ih =>
    simp only [insertSorted]
    split
    · simp [or_comm, or_assoc, or_left_comm]
    · simp [ih]
      tauto

theorem insertionSort_length (lt : α → α → Bool) (l : List α) :
    (insertionSort lt l).length = l.length := by
  suffices h : ∀ acc, (l.foldl (fun acc x => insertSorted lt x acc) acc).length =
      acc.length + l.length by
    simpa using h []
  induction l with
  | nil => intro acc; simp
  | cons y ys ih =>
    intro acc
    simp only [List.foldl_cons]
    rw [ih (insertSorted lt y acc), insertSorted_length, List.length_cons]
    omega

theorem insertionSort_mem (lt : α → α → Bool) (a : α) (l : List α) :
    a ∈ insertionSort lt l ↔ a ∈ l := by
  suffices h : ∀ acc, a ∈ l.foldl (fun acc x => insertSorted lt x acc) acc ↔
      a ∈ acc ∨ a ∈ l by
    simpa using h []
  induction l with
  | nil => intro acc; simp
  | cons y ys ih =>
    intro acc
    simp only [List.foldl_cons]
    rw [ih (insertSorted lt y acc), insertSorted_mem, List.mem_cons]
    tauto

theorem pySortedByTime_length (now : Int) (logs sl : List Rec)
    (h : pySortedByTime now logs = .ok sl) : sl.length = logs.length := by
  cases logs with
  | nil => simp [pySortedByTime] at h; subst h; rfl
  | cons x xs =>
    simp only [pySortedByTime] at h
    split at h
    · simp at h
      subst h
      rw [insertionSort_length]
    · exact absurd h (by simp)

theorem pySortedByTime_mem (now : Int) (logs sl : List Rec) (r : Rec)
    (h : pySortedByTime now logs = .ok sl) (hr : r ∈ sl) : r ∈ logs := by
  cases logs with
  | nil => simp [pySortedByTime] at h; subst h; simp at hr
  | cons x xs =>
    simp only [pySortedByTime] at h
    split at h
    · simp at h
      subst h
      exact (insertionSort_mem _ r _).1 hr
    · exact absurd h (by simp)

/-- C3: whenever `split_into_sessions` returns a session list, the sessions
partition the input records — the session lengths sum to the input length
and no session is empty. -/
theorem split_into_sessions_partition (now gap_minutes : Int)
    (logs : List Rec) (ss : List (List Rec))
    (h : split_into_sessions now logs gap_minutes = .ok ss) :
    (ss.map List.length).sum = logs.length ∧ ∀ s ∈ ss, s ≠ [] := by
  simp only [split_into_sessions] at h
  split at h
  · rename_i hemp
    simp at h
    subst h
    simp [List.isEmpty_iff.1 hemp]
  · rename_i hemp
    cases hsort : pySortedByTime now logs with
    | error e => rw [hsort] at h; exact absurd h (by simp)
    | ok sl =>
      rw [hsort] at h
      cases sl with
      | nil =>
        have hlen0 := pySortedByTime_length now logs [] hsort
        simp at hlen0
        have hnil : logs = [] := List.length_eq_zero.1 (by omega)
        exact absurd (List.isEmpty_iff.2 hnil) (by simpa using hemp)
      | cons x xs =>
        have hflat := sessionsLoop_flatten _ xs x [x] ss h
        have hlen := pySortedByTime_length now logs (x :: xs) hsort
        constructor
        · have : ss.flatten.length = logs.length := by
            rw [hflat]; simpa using hlen
          rw [← this, List.length_flatten]
        · exact sessionsLoop_ne_nil _ xs x [x] ss h (by simp)

instance {ε α : Type _} [DecidableEq ε] [DecidableEq α] :
    DecidableEq (Except ε α) := fun x y =>
  match x, y with
  | .ok a, .ok b =>
    if h : a = b then isTrue (by rw [h])
    else isFalse (by intro h'; injection h'; contradiction)
  | .error a, .error b =>
    if h : a = b then isTrue (by rw [h])
    else isFalse (by intro h'; injection h'; contradiction)
  | .ok _, .error _ => isFalse (by intro h'; injection h')
  | .error _, .ok _ => isFalse (by intro h'; injection h')

/-- Concrete records of Scenario A (10:00, 10:05, 10:20, 10-minute
threshold). -/
def recA1 : Rec := ⟨"2024-06-01T10:00:00+09:00", "A", "", ""⟩

def recA2 : Rec := ⟨"2024-06-01T10:05:00+09:00", "A", "", ""⟩

def recB3 : Rec := ⟨"2024-06-01T10:20:00+09:00", "B", "", ""⟩

def scenarioALogs : List Rec := [recA1, recA2, recB3]

def scenarioASessions : List (List Rec) := [[recA1, recA2], [recB3]]

/-- Closed evaluation used to apply `split_into_sessions_partition`:
scenario A of the spec (records at 10:00, 10:05, 10:20 with a 10-minute
threshold). -/
theorem split_into_sessions_partition_witness :
    (scenarioASessions.map List.length).sum = scenarioALogs.length ∧
      ∀ s ∈ scenarioASessions, s ≠ [] :=
  split_into_sessions_partition 0 10 scenarioALogs scenarioASessions
    (by decide)

/-- C4: whenever `split_into_sessions` succeeds, its sessions flatten back
to the timestamp-sorted record list, consecutive records inside one
session have a gap strictly below `gap_minutes`, and the gap across every
session boundary is at least `gap_minutes` (inclusive threshold). -/
theorem split_into_sessions_gap_threshold (now gap_minutes : Int)
    (logs sl : List Rec) (ss : List (List Rec))
    (hsort : pySortedByTime now logs = .ok sl)
    (h : split_into_sessions now logs gap_minutes = .ok ss) :
    ss.flatten = sl ∧
      (∀ s ∈ ss, List.Chain'
        (fun a b => ¬ GapP now (gap_minutes * 60000000) a b) s) ∧
      List.Chain' (fun s t => GapP now (gap_minutes * 60000000)
        (s.getLastD default) (t.headD default)) ss := by
  simp only [split_into_sessions] at h
  split at h
  · rename_i hemp
    simp at h
    subst h
    have : logs = [] := List.isEmpty_iff.1 hemp
    subst this
    simp [pySortedByTime] at hsort
    subst hsort
    simp
  · rw [hsort] at h
    cases sl with
    | nil =>
      simp at h
      subst h
      simp
    | cons x xs =>
      have hflat := sessionsLoop_flatten _ xs x [x] ss h
      have hchain := sessionsLoop_chain now (gap_minutes * 60000000) xs x [x]
        ss h (by simp) (by simp)
      exact ⟨by simpa using hflat, hchain.1, hchain.2⟩

/-- Closed evaluation used to apply `split_into_sessions_gap_threshold`:
a gap of exactly 10 minutes splits, one of 5 minutes does not. -/
theorem split_into_sessions_gap_threshold_witness :
    scenarioASessions.flatten = scenarioALogs ∧
      (∀ s ∈ scenarioASessions, List.Chain'
        (fun a b => ¬ GapP 0 (10 * 60000000) a b) s) ∧
      List.Chain' (fun s t => GapP 0 (10 * 60000000)
        (s.getLastD default) (t.headD default)) scenarioASessions :=
  split_into_sessions_gap_threshold 0 10 scenarioALogs scenarioALogs
    scenarioASessions (by decide) (by decide)

/-! ### C7: unparsable-timestamp recovery -/

/-- A record with an offset-aware, parsable timestamp. -/
def recAware : Rec := ⟨"2024-06-01T10:00:00+00:00", "App", "", ""⟩

/-- A record whose timestamp cannot be parsed. -/
def recBad : Rec := ⟨"not-a-timestamp", "App", "", ""⟩

/-- C7 counterexample: a batch mixing an offset-aware parsable timestamp
with an unparsable one is fatal — the fallback `datetime.now()` is naive,
and Python's sort raises `TypeError` comparing it with the aware key — so
`split_into_sessions` does not return normally for every input list. -/
theorem split_into_sessions_mixed_fatal_counterexample :
    split_into_sessions 0 [recAware, recBad] 10 = .error () ∧
      fromisoformat (replaceZ recBad.timestamp.data) = none :=
  ⟨by decide, by decide⟩

theorem sessionsLoop_ok_of_naive (now thr : Int) (l : List Rec) :
    ∀ prev cur,
      (∀ r ∈ l, (parse_timestamp now r.timestamp).aware = false) →
      (parse_timestamp now prev.timestamp).aware = false →
      ∃ ss, sessionsLoop (gapSplitTest now thr) prev cur l = .ok ss := by
  induction l with
  | nil => intro prev cur _ _; exact ⟨[cur], rfl⟩
  | cons r rest ih =>
    intro prev cur hall hprev
    have hr : (parse_timestamp now r.timestamp).aware = false :=
      hall r (by simp)
    have hsub : gapSplitTest now thr prev r =
        .ok (decide (thr ≤ (parse_timestamp now r.timestamp).micros -
          (parse_timestamp now prev.timestamp).micros)) := by
      unfold gapSplitTest datetimeSub
      rw [hr, hprev]
      simp
    have hrest : ∀ x ∈ rest, (parse_timestamp now x.timestamp).aware = false :=
      fun x hx => hall x (by simp [hx])
    by_cases hB : thr ≤ (parse_timestamp now r.timestamp).micros -
        (parse_timestamp now prev.timestamp).micros
    · obtain ⟨ss', hss'⟩ := ih r [r] hrest hr
      refine ⟨cur :: ss', ?_⟩
      simp only [sessionsLoop, hsub, decide_eq_true hB, hss']
    · obtain ⟨ss', hss'⟩ := ih r (cur ++ [r]) hrest hr
      refine ⟨ss', ?_⟩
      simp only [sessionsLoop, hsub, decide_eq_false hB, hss']

/-- C7 amended: an unparsable timestamp is replaced by the current
wall-clock time (a naive datetime) and the record is kept; when *all*
records' timestamps are unparsable the run completes normally with every
record preserved.  (Only mixing aware parsable timestamps with unparsable
ones aborts the batch, per the counterexample.) -/
theorem parse_timestamp_fallback_amended :
    (∀ (now : Int) (s : String), fromisoformat (replaceZ s.data) = none →
      parse_timestamp now s = ⟨now, false⟩) ∧
    (∀ (now g : Int) (logs : List Rec),
      (∀ r ∈ logs, fromisoformat (replaceZ r.timestamp.data) = none) →
      ∃ ss, split_into_sessions now logs g = .ok ss ∧
        (ss.map List.length).sum = logs.length) := by
  have hfall : ∀ (now : Int) (s : String),
      fromisoformat (replaceZ s.data) = none →
      parse_timestamp now s = ⟨now, false⟩ := by
    intro now s h
    unfold parse_timestamp
    rw [h]
  refine ⟨hfall, ?_⟩
  intro now g logs hall
  have hnaive : ∀ r ∈ logs, (parse_timestamp now r.timestamp).aware = false := by
    intro r hr
    rw [hfall now r.timestamp (hall r hr)]
  cases hlogs : logs with
  | nil => exact ⟨[], by simp [split_into_sessions], by simp⟩
  | cons x xs =>
    subst hlogs
    have hcond : (xs.all fun y => (parse_timestamp now y.timestamp).aware ==
        (parse_timestamp now x.timestamp).aware) = true := by
      rw [List.all_eq_true]
      intro y hy
      rw [hnaive y (by simp [hy]), hnaive x (by simp)]
      rfl
    have hsort : pySortedByTime now (x :: xs) =
        .ok (insertionSort (fun a b =>
          (parse_timestamp now a.timestamp).micros <
            (parse_timestamp now b.timestamp).micros) (x :: xs)) := by
      simp only [pySortedByTime]
      rw [if_pos hcond]
    set sl := insertionSort (fun a b =>
      (parse_timestamp now a.timestamp).micros <
        (parse_timestamp now b.timestamp).micros) (x :: xs) with hsl
    have hlen : sl.length = xs.length + 1 := by
      rw [hsl, insertionSort_length, List.length_cons]
    cases hsl2 : sl with
    | nil => rw [hsl2] at hlen; simp at hlen
    | cons y ys =>
      have hyn : (parse_timestamp now y.timestamp).aware = false := by
        refine hnaive y ?_
        exact (insertionSort_mem _ y _).1 (by rw [← hsl, hsl2]; simp)
      have hysn : ∀ r ∈ ys, (parse_timestamp now r.timestamp).aware = false := by
        intro r hr
        refine hnaive r ?_
        exact (insertionSort_mem _ r _).1 (by rw [← hsl, hsl2]; simp [hr])
      obtain ⟨ss, hss⟩ := sessionsLoop_ok_of_naive now (g * 60000000) ys y [y]
        hysn hyn
      refine ⟨ss, ?_, ?_⟩
      · unfold split_into_sessions
        rw [if_neg (by simp)]
        rw [hsort, hsl2]
        exact hss
      · have hflat := sessionsLoop_flatten _ ys y [y] ss hss
        have h1 : ss.flatten.length = (y :: ys).length := by
          rw [hflat]
          simp
        rw [← List.length_flatten, h1, ← hsl2, hlen, List.length_cons]

/-- Closed evaluation used to apply `parse_timestamp_fallback_amended`. -/
theorem parse_timestamp_fallback_amended_witness :
    parse_timestamp 5 "garbage" = ⟨5, false⟩ ∧
      ∃ ss, split_into_sessions 0 [recBad] 10 = .ok ss ∧
        (ss.map List.length).sum = 1 :=
  ⟨parse_timestamp_fallback_amended.1 5 "garbage" (by decide),
   by
    have h := parse_timestamp_fallback_amended.2 0 10 [recBad] (by
      intro r hr
      simp at hr
      subst hr
      decide)
    simpa using h⟩

/-! ## Grouper: `group_by_app_and_window` (report_preprocess.py lines 119-166)

Python accumulates a dict keyed by `f"{app_name}::{window_title}"`
(insertion-ordered, modelled as an association list), then sorts the
values by `start_time` (raw string comparison, stable). -/

structure Group where
  app_name : String
  window_title : String
  entries : List Rec
  total_chars : Nat
  start_time : String
  end_time : String
deriving DecidableEq

/-- The dict key of line 137: `f"{app_name}::{window_title}"`. -/
def groupKey (r : Rec) : String := r.app_name ++ "::" ++ r.window_title

/-- The fresh group of lines 140-147 (entries and counters start empty,
both time bounds at the record's timestamp). -/
def newGroup (r : Rec) : Group :=
  ⟨r.app_name, r.window_title, [], 0, r.timestamp, r.timestamp⟩

/-- Lines 149-157: append the entry, add its OCR length, and widen the
time bounds by raw string comparison (`<` / `>` on ISO strings). -/
def updateGroup (g : Group) (r : Rec) : Group :=
  { g with
    entries := g.entries ++ [r]
    total_chars := g.total_chars + r.ocr_text.length
    start_time := if r.timestamp < g.start_time then r.timestamp else g.start_time
    end_time := if g.end_time < r.timestamp then r.timestamp else g.end_time }

/-- One iteration of the dict-building loop (lines 131-157) on the
insertion-ordered association list. -/
def groupsInsert : List (String × Group) → Rec → List (String × Group)
  | [], r => [(groupKey r, updateGroup (newGroup r) r)]
  | (k, g) :: rest, r =>
    if k = groupKey r then (k, updateGroup g r) :: rest
    else (k, g) :: groupsInsert rest r

/-- Embedding of `group_by_app_and_window(logs)`: build the dict, take its
values in insertion order, and stable-sort them by `start_time`
(line 163). -/
def group_by_app_and_window (logs : List Rec) : List Group :=
  insertionSort (fun a b => decide (a.start_time < b.start_time))
    ((logs.foldl groupsInsert []).map Prod.snd)

/-! ### Grouper lemmas -/

theorem groupsInsert_key_inv (acc : List (String × Group)) (r : Rec)
    (hacc : ∀ p ∈ acc, ∀ x ∈ p.2.entries, groupKey x = p.1) :
    ∀ p ∈ groupsInsert acc r, ∀ x ∈ p.2.entries, groupKey x = p.1 := by
  induction acc with
  | nil =>
    intro p hp x hx
    simp [groupsInsert] at hp
    subst hp
    simp [updateGroup, newGroup] at hx
    subst hx
    rfl
  | cons a rest ih =>
    obtain ⟨k, g⟩ := a
    intro p hp x hx
    simp only [groupsInsert] at hp
    split at hp
    · rename_i hk
      rcases List.mem_cons.1 hp with h | h
      · subst h
        simp only [updateGroup] at hx
        rcases List.mem_append.1 hx with h' | h'
        · exact hacc (k, g) (by simp) x h'
        · simp at h'
          subst h'
          simp [hk]
      · exact hacc p (by simp [h]) x hx
    · rcases List.mem_cons.1 hp with h | h
      · subst h
        exact hacc (k, g) (by simp) x hx
      · exact ih (fun q hq => hacc q (by simp [hq])) p h x hx

theorem groupsInsert_keys (acc : List (String × Group)) (r : Rec) :
    (groupsInsert acc r).map Prod.fst =
      if groupKey r ∈ acc.map Prod.fst then acc.map Prod.fst
      else acc.map Prod.fst ++ [groupKey r] := by
  induction acc with
  | nil => simp [groupsInsert]
  | cons a rest ih =>
    obtain ⟨k, g⟩ := a
    simp only [groupsInsert]
    split
    · rename_i hk
      simp [hk]
    · rename_i hk
      simp only [List.map_cons, ih]
      by_cases hmem : groupKey r ∈ rest.map Prod.fst
      · rw [if_pos hmem, if_pos (by simp [hmem])]
      · rw [if_neg hmem, if_neg (by
          simp only [List.map_cons, List.mem_cons]
          push_neg
          exact ⟨fun h => hk h.symm, hmem⟩)]
        simp

theorem groupsInsert_keys_nodup (acc : List (String × Group)) (r : Rec)
    (h : (acc.map Prod.fst).Nodup) :
    ((groupsInsert acc r).map Prod.fst).Nodup := by
  rw [groupsInsert_keys]
  split
  · exact h
  · rename_i hmem
    simp [List.nodup_append, h, hmem]

theorem groupsInsert_self (acc : List (String × Group)) (r : Rec) :
    ∃ p ∈ groupsInsert acc r, p.1 = groupKey r ∧ r ∈ p.2.entries := by
  induction acc with
  | nil =>
    refine ⟨(groupKey r, updateGroup (newGroup r) r), by simp [groupsInsert], rfl, ?_⟩
    simp [updateGroup, newGroup]
  | cons a rest ih =>
    obtain ⟨k, g⟩ := a
    simp only [groupsInsert]
    split
    · rename_i hk
      exact ⟨(k, updateGroup g r), by simp, hk, by simp [updateGroup]⟩
    · obtain ⟨p, hp, hpk, hpr⟩ := ih
      exact ⟨p, by simp [hp], hpk, hpr⟩

theorem groupsInsert_preserve (acc : List (String × Group)) (r : Rec)
    (p : String × Group) (hp : p ∈ acc) (x : Rec) (hx : x ∈ p.2.entries) :
    ∃ q ∈ groupsInsert acc r, q.1 = p.1 ∧ x ∈ q.2.entries := by
  induction acc with
  | nil => simp at hp
  | cons a rest ih =>
    obtain ⟨k, g⟩ := a
    simp only [groupsInsert]
    rcases List.mem_cons.1 hp with h | h
    · subst h
      split
    -- updated in place: entries only grow
      · exact ⟨(k, updateGroup g r), by simp, rfl, by simp [updateGroup, hx]⟩
      · exact ⟨(k, g), by simp, rfl, hx⟩
    · split
      · exact ⟨p, by simp [h], rfl, hx⟩
      · obtain ⟨q, hq, hqk, hqx⟩ := ih h
        exact ⟨q, by simp [hq], hqk, hqx⟩

theorem foldl_groupsInsert_key_inv (logs : List Rec) :
    ∀ acc, (∀ p ∈ acc, ∀ x ∈ p.2.entries, groupKey x = p.1) →
      ∀ p ∈ logs.foldl groupsInsert acc, ∀ x ∈ p.2.entries, groupKey x = p.1 := by
  induction logs with
  | nil => intro acc hacc; simpa using hacc
  | cons r rest ih =>
    intro acc hacc
    simp only [List.foldl_cons]
    exact ih (groupsInsert acc r) (groupsInsert_key_inv acc r hacc)

theorem foldl_groupsInsert_nodup (logs : List Rec) :
    ∀ acc, (acc.map Prod.fst).Nodup →
      ((logs.foldl groupsInsert acc).map Prod.fst).Nodup := by
  induction logs with
  | nil => intro acc hacc; simpa using hacc
  | cons r rest ih =>
    intro acc hacc
    simp only [List.foldl_cons]
    exact ih (groupsInsert acc r) (groupsInsert_keys_nodup acc r hacc)

theorem foldl_groupsInsert_complete (logs : List Rec) :
    ∀ acc r, r ∈ logs ∨ (∃ p ∈ acc, p.1 = groupKey r ∧ r ∈ p.2.entries) →
      ∃ p ∈ logs.foldl groupsInsert acc, p.1 = groupKey r ∧ r ∈ p.2.entries := by
  induction logs with
  | nil =>
    intro acc r h
    rcases h with h | h
    · simp at h
    · simpa using h
  | cons s rest ih =>
    intro acc r h
    simp only [List.foldl_cons]
    rcases h with h | h
    · rcases List.mem_cons.1 h with h' | h'
      · subst h'
        exact ih _ r (Or.inr (groupsInsert_self acc r))
      · exact ih _ r (Or.inl h')
    · obtain ⟨p, hp, hpk, hpr⟩ := h
      obtain ⟨q, hq, hqk, hqr⟩ := groupsInsert_preserve acc s p hp r hpr
      exact ih _ r (Or.inr ⟨q, hq, by rw [hqk, hpk], hqr⟩)

theorem eq_of_nodup_keys (l : List (String × Group))
    (h : (l.map Prod.fst).Nodup) :
    ∀ p ∈ l, ∀ q ∈ l, p.1 = q.1 → p = q := by
  induction l with
  | nil => intro p hp; simp at hp
  | cons a rest ih =>
    intro p hp q hq hpq
    simp only [List.map_cons, List.nodup_cons] at h
    rcases List.mem_cons.1 hp with h1 | h1 <;>
      rcases List.mem_cons.1 hq with h2 | h2
    · rw [h1, h2]
    · subst h1
      exact absurd (hpq ▸ List.mem_map_of_mem Prod.fst h2) h.1
    · subst h2
      exact absurd (hpq ▸ List.mem_map_of_mem Prod.fst h1) h.1
    · exact ih h.2 p h1 q h2 hpq

/-- C5 amended: two input records end up in the same group *iff* their
concatenated dict keys `f"{app_name}::{window_title}"` are equal.  Equal
`(app_name, window_title)` pairs always share a group, but because the key
flattens the pair with a `"::"` separator, distinct pairs whose fields
contain `"::"` can collide (see the counterexample). -/
theorem group_by_same_group_iff_same_key (logs : List Rec) (r1 r2 : Rec)
    (h1 : r1 ∈ logs) (h2 : r2 ∈ logs) :
    (∃ g ∈ group_by_app_and_window logs,
        r1 ∈ g.entries ∧ r2 ∈ g.entries) ↔
      groupKey r1 = groupKey r2 := by
  constructor
  · rintro ⟨g, hg, hr1, hr2⟩
    rw [group_by_app_and_window, insertionSort_mem] at hg
    obtain ⟨p, hp, hpg⟩ := List.mem_map.1 hg
    have hkey := foldl_groupsInsert_key_inv logs [] (by simp) p hp
    rw [hpg] at hkey
    rw [hkey r1 hr1, hkey r2 hr2]
  · intro hk
    obtain ⟨p1, hp1, hp1k, hp1r⟩ :=
      foldl_groupsInsert_complete logs [] r1 (Or.inl h1)
    obtain ⟨p2, hp2, hp2k, hp2r⟩ :=
      foldl_groupsInsert_complete logs [] r2 (Or.inl h2)
    have hnd := foldl_groupsInsert_nodup logs [] (by simp)
    have : p1 = p2 :=
      eq_of_nodup_keys _ hnd p1 hp1 p2 hp2 (by rw [hp1k, hp2k, hk])
    subst this
    refine ⟨p1.2, ?_, hp1r, hp2r⟩
    rw [group_by_app_and_window, insertionSort_mem]
    exact List.mem_map_of_mem Prod.snd hp1

/-- Closed evaluation used to apply `group_by_same_group_iff_same_key`:
two records with identical `(app_name, window_title)` share a group. -/
theorem group_by_same_group_iff_same_key_witness :
    ∃ g ∈ group_by_app_and_window [recA1, recA2],
      recA1 ∈ g.entries ∧ recA2 ∈ g.entries :=
  (group_by_same_group_iff_same_key [recA1, recA2] recA1 recA2
    (by decide) (by decide)).2 (by decide)

/-- Record with `app_name = "A::B"`, `window_title = ""`. -/
def recColA : Rec := ⟨"2024-06-01T10:00:00+00:00", "A::B", "", ""⟩

/-- Record with `app_name = "A"`, `window_title = "B::"`. -/
def recColB : Rec := ⟨"2024-06-01T10:00:01+00:00", "A", "B::", ""⟩

/-- C5 counterexample: the records `("A::B", "")` and `("A", "B::")` have
different `app_name` strings yet are placed in one and the same group,
because both flatten to the dict key `"A::B::"` — refuting "same group iff
equal `app_name` and equal `window_title`". -/
theorem group_by_collision_counterexample :
    (group_by_app_and_window [recColA, recColB]).length = 1 ∧
      (∀ g ∈ group_by_app_and_window [recColA, recColB],
        recColA ∈ g.entries ∧ recColB ∈ g.entries) ∧
      recColA.app_name ≠ recColB.app_name :=
  ⟨by decide, by decide, by decide⟩

/-! ## Masker: `mask_sensitive_info` (report_preprocess.py lines 169-188)

Three sequential `re.sub` passes: email, then URL, then card number.
Each regex is translated into an operational matcher with Python's
leftmost-match, greedy-with-backtracking semantics (ASCII word/space/digit
classes, which cover all characters these patterns can match):

* email: `\b[A-Za-z0-9._%+-]+@[A-Za-z0-9.-]+\.[A-Z|a-z]{2,}\b` — the
  local-part run cannot be shortened by backtracking (`@` is not in the
  class), the domain run backtracks from longest to find the final
  `\.`+TLD, and the `[A-Z|a-z]` class literally contains `|`;
* URL: `https?://[^\s]+` (optional `s` tried greedily; dropping it can
  never help since `://` does not start with `s`);
* card: `\d{4}[-\s]?\d{4}[-\s]?\d{4}[-\s]?\d{4}` (a skipped separator
  would put `\d` on the separator character, so each `[-\s]?` is
  effectively deterministic). -/

def isWordChar (c : Char) : Bool := c.isAlpha || c.isDigit || c = '_'

def isSpaceChar (c : Char) : Bool :=
  c = ' ' || c = '\t' || c = '\n' || c = '\r' || c = '\x0b' || c = '\x0c'

def isLocalChar (c : Char) : Bool :=
  c.isAlpha || c.isDigit || c = '.' || c = '_' || c = '%' || c = '+' || c = '-'

def isDomChar (c : Char) : Bool := c.isAlpha || c.isDigit || c = '.' || c = '-'

def isTldChar (c : Char) : Bool := c.isAlpha || c = '|'

/-- Word-ness of an optional character (string edges count as non-word). -/
def wordB : Option Char → Bool
  | none => false
  | some c => isWordChar c

/-- Backtracking search for `{2,}` TLD length `t` (descending from the
greedy maximum), requiring a trailing `\b`. -/
def tldTry (v : List Char) : Nat → Option Nat
  | 0 => none
  | Nat.succ t' =>
    let t := Nat.succ t'
    if t < 2 then none
    else if wordB v[t-1]? != wordB v[t]? then some t
    else tldTry v t'

/-- Backtracking search for the domain-run length `d` (descending),
requiring a literal `.` at position `d` followed by a matching TLD. -/
def domTry (u : List Char) : Nat → Option Nat
  | 0 => none
  | Nat.succ d' =>
    let d := Nat.succ d'
    match u[d]? with
    | some c =>
      if c = '.' then
        let v := u.drop (d + 1)
        match tldTry v (v.takeWhile isTldChar).length with
        | some t => some (d + 1 + t)
        | none => domTry u d'
      else domTry u d'
    | none => domTry u d'

/-- Match the email pattern at the start of `s` (`prev` is the character
preceding `s` in the whole text, for `\b`); returns the match length. -/
def matchEmail (prev : Option Char) (s : List Char) : Option Nat :=
  if wordB prev != wordB s.head? then
    let L := (s.takeWhile isLocalChar).length
    if L = 0 then none
    else
      match s[L]? with
      | some c =>
        if c = '@' then
          let u := s.drop (L + 1)
          match domTry u (u.takeWhile isDomChar).length with
          | some n => some (L + 1 + n)
          | none => none
        else none
      | none => none
  else none

/-- Match `https?://[^\s]+` at the start of `s`. -/
def matchUrl (_ : Option Char) (s : List Char) : Option Nat :=
  match s with
  | 'h' :: 't' :: 't' :: 'p' :: rest =>
    let (n2, rest2) : Nat × List Char :=
      match rest with
      | 's' :: r2 => (5, r2)
      | _ => (4, rest)
    match rest2 with
    | ':' :: '/' :: '/' :: r3 =>
      let m := (r3.takeWhile (fun c => !isSpaceChar c)).length
      if m = 0 then none else some (n2 + 3 + m)
    | _ => none
  | _ => none

def isSepChar (c : Char) : Bool := c = '-' || isSpaceChar c

/-- Consume exactly four ASCII digits. -/
def take4digits : List Char → Option (List Char)
  | a :: b :: c :: d :: rest =>
    if a.isDigit && b.isDigit && c.isDigit && d.isDigit then some rest
    else none
  | _ => none

/-- Consume `[-\s]?\d{4}`; returns consumed length and remainder. -/
def sepThen4 (s : List Char) : Option (Nat × List Char) :=
  match s with
  | [] => none
  | c :: rest =>
    if isSepChar c then
      match take4digits rest with
      | some r => some (5, r)
      | none => none
    else
      match take4digits s with
      | some r => some (4, r)
      | none => none

/-- Match the card pattern at the start of `s`. -/
def matchCard (_ : Option Char) (s : List Char) : Option Nat :=
  match take4digits s with
  | none => none
  | some r1 =>
    match sepThen4 r1 with
    | none => none
    | some (n2, r2) =>
      match sepThen4 r2 with
      | none => none
      | some (n3, r3) =>
        match sepThen4 r3 with
        | none => none
        | some (n4, _) => some (4 + n2 + n3 + n4)

/-- Worker for `reSub`, structurally recursive on a fuel bound: every step
consumes at least one character of `l`, so `fuel = l.length` never runs
out (the fuel-zero branch is reached only with `l = []`). -/
def reSubGo (m : Option Char → List Char → Option Nat) (repl : List Char) :
    Nat → Option Char → List Char → List Char
  | 0, _, _ => []
  | fuel + 1, prev, l =>
    match l with
    | [] => []
    | c :: rest =>
      match m prev (c :: rest) with
      | some n =>
        if 1 ≤ n then
          repl ++ reSubGo m repl fuel (c :: rest)[n-1]? ((c :: rest).drop n)
        else c :: reSubGo m repl fuel (some c) rest
      | none => c :: reSubGo m repl fuel (some c) rest

/-- Model of `re.sub(pattern, repl, text)`: scan left to right over the
original text, replacing each non-overlapping leftmost match and resuming
right after it (`prev` tracks the preceding original character for
`\b`). -/
def reSub (m : Option Char → List Char → Option Nat) (repl : List Char)
    (prev : Option Char) (l : List Char) : List Char :=
  reSubGo m repl l.length prev l

/-- Embedding of `mask_sensitive_info(text)`: email → URL → card. -/
def mask_sensitive_info (text : String) : String :=
  let t1 := reSub matchEmail "[EMAIL]".data none text.data
  let t2 := reSub matchUrl "[URL]".data none t1
  let t3 := reSub matchCard "[CARD]".data none t2
  String.mk t3

/-- C9: scenario C of the spec — the email is replaced first, then the
URL, yielding exactly the expected masked string. -/
theorem mask_sensitive_info_scenarioC :
    mask_sensitive_info "contact me at a@b.com via https://x.co" =
      "contact me at [EMAIL] via [URL]" := by
  decide

/-! ## Formatter: `format_logs_for_llm` (report_preprocess.py lines 191-240) -/

/-- The lines emitted for one group (lines 207-238): header, optional
window title, time range, counts, blank line, the non-empty (optionally
masked) OCR texts joined by newline, then blank line / separator / blank
line. -/
def groupLines (g : Group) (mask_sensitive : Bool) : List String :=
  let base :=
    ["【" ++ g.app_name ++ "】"]
    ++ (if g.window_title ≠ "" then ["ウィンドウ: " ++ g.window_title] else [])
    ++ ["時間: " ++ g.start_time ++ " ～ " ++ g.end_time,
        "エントリ数: " ++ toString g.entries.length ++
          ", 総文字数: " ++ toString g.total_chars,
        ""]
  let ocr_texts := g.entries.foldl (fun acc e =>
    if e.ocr_text ≠ "" then
      acc ++ [if mask_sensitive then mask_sensitive_info e.ocr_text
              else e.ocr_text]
    else acc) []
  let withText := if ocr_texts ≠ [] then base ++ [joinNL ocr_texts] else base
  withText ++ ["", "---", ""]

/-- Embedding of `format_logs_for_llm(grouped_logs, mask_sensitive)`. -/
def format_logs_for_llm (grouped_logs : List Group) (mask_sensitive : Bool) :
    String :=
  joinNL (grouped_logs.foldl (fun acc g => acc ++ groupLines g mask_sensitive) [])

/-! ## Pipeline entry point: `preprocess_logs` (lines 285-338) and
`load_logs_by_date` (lines 12-53)

File I/O is modelled by passing the log file as `Option (List String)`
(`none` = the file does not exist, otherwise its lines) and the JSON
parser for a single line as a function `String → Option Rec` (`none` =
`json.JSONDecodeError`, the line is skipped). -/

/-- Model of Python `line.strip()` (ASCII whitespace). -/
def pyStrip (s : String) : String :=
  String.mk (((s.data.dropWhile isSpaceChar).reverse.dropWhile
    isSpaceChar).reverse)

/-- Embedding of `load_logs_by_date`: missing file yields `[]`; blank and
malformed lines are skipped. -/
def load_logs_by_date (parseJson : String → Option Rec)
    (file : Option (List String)) : List Rec :=
  match file with
  | none => []
  | some fileLines =>
    fileLines.foldl (fun logs line =>
      let l := pyStrip line
      if l = "" then logs
      else
        match parseJson l with
        | some entry => logs ++ [entry]
        | none => logs) []

/-- The per-session header of lines 330-333. -/
def sessionHeader (idx n : Nat) : String :=
  "【セッション " ++ toString (idx + 1) ++ "/" ++ toString n ++ "】\n\n"

/-- Embedding of `preprocess_logs`: load, split into sessions, group,
format, chunk, and prefix session headers when more than one session
exists.  The `Except` propagates the `TypeError` of `sorted` (see
`split_into_sessions`). -/
def preprocess_logs (parseJson : String → Option Rec) (now : Int)
    (file : Option (List String)) (group_gap_minutes : Int)
    (chunk_chars : Nat) (mask_sensitive : Bool) :
    Except Unit (List String) :=
  let logs := load_logs_by_date parseJson file
  if logs.isEmpty then .ok []
  else
    match split_into_sessions now logs group_gap_minutes with
    | .error e => .error e
    | .ok sessions =>
      let n := sessions.length
      .ok ((sessions.enum.map (fun p =>
        let chunks := split_into_chunks
          (format_logs_for_llm (group_by_app_and_window p.2) mask_sensitive)
          chunk_chars
        if n > 1 then chunks.map (fun c => sessionHeader p.1 n ++ c)
        else chunks)).flatten)

/-- C8: `preprocess_logs` for a date whose log file does not exist or is
empty returns an empty chunk list and does not raise. -/
theorem preprocess_logs_empty_input (parseJson : String → Option Rec)
    (now group_gap_minutes : Int) (chunk_chars : Nat)
    (mask_sensitive : Bool) :
    preprocess_logs parseJson now none group_gap_minutes chunk_chars
        mask_sensitive = .ok [] ∧
      preprocess_logs parseJson now (some []) group_gap_minutes chunk_chars
        mask_sensitive = .ok [] :=
  ⟨rfl, rfl⟩

/-! ## Report assembler: `generate_report_for_date` (report.py lines
118-210), `combine_reports` (lines 38-59)

The external LLM call is modelled as a function
`gen : chunk-text → date → Except error report-text`
(`llm_client.LLMClientError` is the `Except.error` case). -/

/-- Embedding of `generate_report_header(date)` (lines 24-35). -/
def generate_report_header (date : String) : String := "# " ++ date ++ " 日報"

/-- Embedding of `combine_reports(reports, date)` (lines 38-59). -/
def combine_reports (reports : List String) (date : String) : String :=
  joinNL ([generate_report_header date] ++
    (reports.enum.map (fun p =>
      if p.1 > 0 then
        ["\n---\n", "## 続き（" ++ toString (p.1 + 1) ++ "/" ++
          toString reports.length ++ "）\n", p.2]
      else [p.2])).flatten)

/-- The per-chunk header of lines 169-172. -/
def chunkHeader (i n : Nat) : String :=
  "【チャンク " ++ toString (i + 1) ++ "/" ++ toString n ++ "】\n\n"

/-- The inline error note of line 181. -/
def llmErrorNote (e : String) : String :=
  "\n\n## エラー\n\n日報生成中にエラーが発生しました: " ++ e ++ "\n"

/-- The chunk-processing loop of lines 162-187, exactly as written: on a
generation failure with no successful chunk yet the error propagates; with
at least one success the error note is appended to `report_chunks` and the
`for` loop *continues with the next chunk* (the `except` branch contains
no `break`). -/
def generateReportChunksGo (gen : String → String → Except String String)
    (target_date : String) (total : Nat) :
    Nat → List String → List String → Except String (List String)
  | _, acc, [] => .ok acc
  | i, acc, chunk :: rest =>
    let input := if total > 1 then chunkHeader i total ++ chunk else chunk
    match gen input target_date with
    | .ok r => generateReportChunksGo gen target_date total (i + 1)
        (acc ++ [r]) rest
    | .error e =>
      if acc.isEmpty then .error e
      else generateReportChunksGo gen target_date total (i + 1)
        (acc ++ [llmErrorNote e]) rest

/-- The `report_chunks` list produced by step 3 of
`generate_report_for_date`. -/
def generateReportChunks (gen : String → String → Except String String)
    (target_date : String) (chunks : List String) :
    Except String (List String) :=
  generateReportChunksGo gen target_date chunks.length 0 [] chunks

/-- Steps 3-4 of `generate_report_for_date` (lines 162-194): the assembled
report document (file writing is out of scope). -/
def generate_report_document (gen : String → String → Except String String)
    (target_date : String) (chunks : List String) : Except String String :=
  match generateReportChunks gen target_date chunks with
  | .error e => .error e
  | .ok report_chunks =>
    if report_chunks.length > 1 then
      .ok (combine_reports report_chunks target_date)
    else if report_chunks.isEmpty then .ok ""
    else .ok (generate_report_header target_date ++ "\n" ++
      report_chunks.headD "")

/-- A generation oracle that succeeds on chunks 1 and 3 and fails on
chunk 2 (keyed on the exact chunk-with-header inputs the loop builds). -/
def genFailSecond : String → String → Except String String := fun input _ =>
  if input = chunkHeader 0 3 ++ "c1" then .ok "R1"
  else if input = chunkHeader 1 3 ++ "c2" then .error "boom"
  else if input = chunkHeader 2 3 ++ "c3" then .ok "R3"
  else .error "unexpected input"

/-- A generation oracle that fails already on chunk 1. -/
def genFailFirst : String → String → Except String String := fun input _ =>
  if input = chunkHeader 0 3 ++ "c1" then .error "down"
  else .ok "R"

/-- C1 evaluated at the failing input: with 3 chunks and generation
failing on chunk 2 after chunk 1 succeeded, the code appends the inline
error note and then *still calls the generator for chunk 3*, whose result
`"R3"` appears in the output — the loop has no `break`, contradicting the
spec's "processing stops, no attempt at chunk 3" (and the code's own
comment that an LLM error is fatal and processing ends).  The
no-success-yet half of the policy does hold: failure on chunk 1
propagates. -/
theorem generate_report_no_stop_after_failure :
    generateReportChunks genFailSecond "2024-06-01" ["c1", "c2", "c3"] =
        .ok ["R1", llmErrorNote "boom", "R3"] ∧
      generate_report_document genFailSecond "2024-06-01" ["c1", "c2", "c3"] =
        .ok (combine_reports ["R1", llmErrorNote "boom", "R3"] "2024-06-01") ∧
      generateReportChunks genFailFirst "2024-06-01" ["c1", "c2", "c3"] =
        .error "down" :=
  ⟨by decide, by decide, by decide⟩

end SnapLog
